import Mathlib

/-
Verification of the terok-nor sample snippets against their specification.

The repository consists of four small C files compiled for a wasm-style
target:
  src/sample/mandelbrot.c : iterate_mandelbrot, an escape-iteration counter
                            over IEEE-754 binary64 arithmetic;
  src/sample/memory.c     : six fixed-size typed buffers of 1024*1024
                            elements each, one bulk-update routine per
                            element type, and process_all running all six;
  src/sample/light.c      : a one-int light switch (lit, turn_on, turn_off,
                            is_lit);
  src/sample/hello.c      : a greeting printer (out of scope here).

C `double`/`float` are embedded as an explicit IEEE-754 model: a datum is
NaN, an infinity, or a finite value carried as an exact rational, and every
arithmetic operation rounds its exact rational result to the target format
(round to nearest, ties to even), overflowing to infinity.  The sign of
zero is identified with zero: the program only uses +, -, * and <, and
none of these can distinguish -0.0 from +0.0 in any observable output.

Machine integers are embedded as naturals carrying the two's-complement
bit pattern, with wrap-around written as an explicit `% 2 ^ width`
(the wasm target wraps silently on narrowing and on overflow).
-/

/-- An IEEE-754 binary floating-point datum: NaN, an infinity, or a finite
value represented by its exact rational value (signed zero identified with
zero, which is unobservable through the +, -, *, < operations used by this
program). -/
inductive Fp where
  | nan : Fp
  | posInf : Fp
  | negInf : Fp
  | finite : ℚ → Fp

/-- Parameters of a binary floating-point format: significand width in bits,
minimum normal exponent, and the overflow exponent (a magnitude that rounds
to at least 2 ^ esup becomes infinite). -/
structure FpFmt where
  prec : ℕ
  emin : ℤ
  esup : ℤ

/-- IEEE-754 binary64, the format of C `double`. -/
def fmt64 : FpFmt := ⟨53, -1022, 1024⟩

/-- IEEE-754 binary32, the format of C `float`. -/
def fmt32 : FpFmt := ⟨24, -126, 128⟩

/-- Round a rational to an integer, half to even. -/
def rhe (q : ℚ) : ℤ :=
  if q - ⌊q⌋ < 1 / 2 then ⌊q⌋
  else if q - ⌊q⌋ > 1 / 2 then ⌊q⌋ + 1
  else if ⌊q⌋ % 2 = 0 then ⌊q⌋ else ⌊q⌋ + 1

/-- The magnitude a positive rational rounds to in format `fmt` (round to
nearest, ties to even), before the overflow check: the significand is the
input scaled into the format's precision and rounded half-to-even, then
scaled back. -/
def roundSig (fmt : FpFmt) (q : ℚ) : ℚ :=
  let e := max fmt.emin (Int.log 2 q)
  (rhe (q * (2 : ℚ) ^ ((fmt.prec : ℤ) - 1 - e)) : ℚ) * (2 : ℚ) ^ (e - ((fmt.prec : ℤ) - 1))

/-- Round a positive rational in format `fmt`, overflowing to +infinity. -/
def roundPos (fmt : FpFmt) (q : ℚ) : Fp :=
  if roundSig fmt q < (2 : ℚ) ^ fmt.esup then Fp.finite (roundSig fmt q) else Fp.posInf

/-- Round an exact rational result to format `fmt` (round to nearest, ties
to even); negative inputs round by symmetry of the rounding rule. -/
def roundQ (fmt : FpFmt) (q : ℚ) : Fp :=
  if q = 0 then Fp.finite 0
  else if 0 < q then roundPos fmt q
  else
    match roundPos fmt (-q) with
    | Fp.posInf => Fp.negInf
    | Fp.finite m => Fp.finite (-m)
    | x => x

/-- IEEE-754 negation. -/
def Fp.neg : Fp → Fp
  | nan => nan
  | posInf => negInf
  | negInf => posInf
  | finite q => finite (-q)

/-- IEEE-754 addition in format `fmt`: NaN propagates, opposite infinities
give NaN, an infinity absorbs finite values, and finite values add exactly
and then round. -/
def Fp.add (fmt : FpFmt) : Fp → Fp → Fp
  | nan, _ => nan
  | _, nan => nan
  | posInf, negInf => nan
  | negInf, posInf => nan
  | posInf, _ => posInf
  | _, posInf => posInf
  | negInf, _ => negInf
  | _, negInf => negInf
  | finite a, finite b => roundQ fmt (a + b)

/-- IEEE-754 subtraction: x - y is x + (-y). -/
def Fp.sub (fmt : FpFmt) (a b : Fp) : Fp :=
  Fp.add fmt a (Fp.neg b)

/-- IEEE-754 multiplication in format `fmt`: NaN propagates, zero times an
infinity is NaN, infinities multiply by sign, and finite values multiply
exactly and then round. -/
def Fp.mul (fmt : FpFmt) : Fp → Fp → Fp
  | nan, _ => nan
  | _, nan => nan
  | posInf, posInf => posInf
  | posInf, negInf => negInf
  | negInf, posInf => negInf
  | negInf, negInf => posInf
  | posInf, finite b => if b = 0 then nan else if 0 < b then posInf else negInf
  | finite a, posInf => if a = 0 then nan else if 0 < a then posInf else negInf
  | negInf, finite b => if b = 0 then nan else if 0 < b then negInf else posInf
  | finite a, negInf => if a = 0 then nan else if 0 < a then negInf else posInf
  | finite a, finite b => roundQ fmt (a * b)

/-- IEEE-754 ordered comparison `<`: any comparison with NaN is false. -/
def Fp.lt : Fp → Fp → Bool
  | nan, _ => false
  | _, nan => false
  | posInf, _ => false
  | _, posInf => true
  | negInf, negInf => false
  | negInf, finite _ => true
  | finite _, negInf => false
  | finite a, finite b => decide (a < b)

/-- The loop of `iterate_mandelbrot` (src/sample/mandelbrot.c).  The C loop
`for (; i < maxIters && (zx*zx + zy*zy) < 4.0; i++)` is driven here by
`fuel = maxIters - i`, so `fuel = 0` is exactly the exit `i < maxIters`
failing; `zy` is updated from the old `zx` because the C code saves the new
real part in the temporary `new_zx` before overwriting `zx`. -/
def mandelLoop (cx cy zx zy : Fp) (i : ℕ) : ℕ → ℕ
  | 0 => i
  | fuel + 1 =>
    if Fp.lt (Fp.add fmt64 (Fp.mul fmt64 zx zx) (Fp.mul fmt64 zy zy)) (Fp.finite 4) then
      mandelLoop cx cy
        (Fp.add fmt64 (Fp.sub fmt64 (Fp.mul fmt64 zx zx) (Fp.mul fmt64 zy zy)) cx)
        (Fp.add fmt64 (Fp.mul fmt64 (Fp.mul fmt64 (Fp.finite 2) zx) zy) cy)
        (i + 1) fuel
    else i

/-- C: `unsigned iterate_mandelbrot(double cx, double cy, unsigned maxIters)`
(src/sample/mandelbrot.c).  `zx = zy = 0.0`, `i = 0`, then the loop above.
The `unsigned` count is embedded as a natural: the counter starts at 0 and
never exceeds `maxIters`, so no 32-bit wrap can occur. -/
def iterate_mandelbrot (cx cy : Fp) (maxIters : ℕ) : ℕ :=
  mandelLoop cx cy (Fp.finite 0) (Fp.finite 0) 0 maxIters

/-- The fixed buffer length of src/sample/memory.c: `#define ITEMS (1024 * 1024)`. -/
def ITEMS : ℕ := 1024 * 1024

/-- The six static typed buffers of src/sample/memory.c.  Integer buffers
hold the element's bit pattern as a natural below 2 ^ width (`char`,
`short`, `int`, `long long` all wrap in two's complement on the wasm
target, and patterns add modulo 2 ^ width regardless of signedness); float
buffers hold IEEE values.  A buffer is a function from index to element;
indices at or above ITEMS are never touched. -/
structure MemState where
  buffer_i8 : ℕ → ℕ
  buffer_i16 : ℕ → ℕ
  buffer_i32 : ℕ → ℕ
  buffer_i64 : ℕ → ℕ
  buffer_f32 : ℕ → Fp
  buffer_f64 : ℕ → Fp

/-- Point update of a buffer: write `v` at index `i`. -/
def updateAt {α : Type} (buf : ℕ → α) (i : ℕ) (v : α) : ℕ → α :=
  fun j => if j = i then v else buf j

/-- The loop `for (int i = 0; i < ITEMS; i++) buffer[i] = f(i, buffer[i]);`
starting at index `i` with `n` iterations left: each step rewrites index
`i` from its current value and moves to `i + 1`. -/
def scanFrom {α : Type} (f : ℕ → α → α) (buf : ℕ → α) (i : ℕ) : ℕ → (ℕ → α)
  | 0 => buf
  | n + 1 => scanFrom f (updateAt buf i (f i (buf i))) (i + 1) n

/-- A full ascending index-order pass over one buffer, as in each
`process_<type>` routine of src/sample/memory.c. -/
def scan {α : Type} (f : ℕ → α → α) (buf : ℕ → α) : ℕ → α :=
  scanFrom f buf 0 ITEMS

/-- C: `void process_i8(void)` — `buffer_i8[i] += i` for each index in
order; `char` arithmetic wraps the pattern modulo 2 ^ 8. -/
def process_i8 (s : MemState) : MemState :=
  { s with buffer_i8 := scan (fun i v => (v + i) % 2 ^ 8) s.buffer_i8 }

/-- C: `void process_i16(void)` — `buffer_i16[i] += i`, wrapping modulo 2 ^ 16. -/
def process_i16 (s : MemState) : MemState :=
  { s with buffer_i16 := scan (fun i v => (v + i) % 2 ^ 16) s.buffer_i16 }

/-- C: `void process_i32(void)` — `buffer_i32[i] += i`, wrapping modulo 2 ^ 32. -/
def process_i32 (s : MemState) : MemState :=
  { s with buffer_i32 := scan (fun i v => (v + i) % 2 ^ 32) s.buffer_i32 }

/-- C: `void process_i64(void)` — `buffer_i64[i] += i`, wrapping modulo 2 ^ 64. -/
def process_i64 (s : MemState) : MemState :=
  { s with buffer_i64 := scan (fun i v => (v + i) % 2 ^ 64) s.buffer_i64 }

/-- C: `void process_f32(void)` — `buffer_f32[i] += i`: the index converts
to `float` (a rounding conversion) and adds in binary32. -/
def process_f32 (s : MemState) : MemState :=
  { s with buffer_f32 := scan (fun i v => Fp.add fmt32 v (roundQ fmt32 (i : ℚ))) s.buffer_f32 }

/-- C: `void process_f64(void)` — `buffer_f64[i] += i`: the index converts
to `double` (exactly, for i < 2 ^ 53) and adds in binary64. -/
def process_f64 (s : MemState) : MemState :=
  { s with buffer_f64 := scan (fun i v => Fp.add fmt64 v (roundQ fmt64 (i : ℚ))) s.buffer_f64 }

/-- C: `void process_all(void)` (src/sample/memory.c) — calls process_i8,
process_i16, process_i32, process_i64, process_f32, process_f64 in that
order. -/
def process_all (s : MemState) : MemState :=
  process_f64 (process_f32 (process_i64 (process_i32 (process_i16 (process_i8 s)))))

/-- Spec words for process_all (section 4.2): invoke all six individual
routines in the fixed listed order 8-bit, 16-bit, 32-bit, 64-bit integer,
32-bit float, 64-bit float. -/
def processAllSpec (s : MemState) : MemState :=
  process_f64 (process_f32 (process_i64 (process_i32 (process_i16 (process_i8 s)))))

/-- The process-start state: all six static buffers zero-initialized (a
zero bit pattern is integer 0 and float +0.0). -/
def initMem : MemState where
  buffer_i8 := fun _ => 0
  buffer_i16 := fun _ => 0
  buffer_i32 := fun _ => 0
  buffer_i64 := fun _ => 0
  buffer_f32 := fun _ => Fp.finite 0
  buffer_f64 := fun _ => Fp.finite 0

/-- The three entry points of src/sample/light.c plus a pure read, as
events acting on the one `int lit` cell. -/
inductive LightCall where
  | turnOn : LightCall
  | turnOff : LightCall
  | isLit : LightCall

/-- C: `void turn_on(void)` — `lit = 1`. -/
def turn_on (_ : ℤ) : ℤ := 1

/-- C: `void turn_off(void)` — `lit = 0`. -/
def turn_off (_ : ℤ) : ℤ := 0

/-- C: `int is_lit(void)` — `return lit;`, a pure read of the cell. -/
def is_lit (s : ℤ) : ℤ := s

/-- Effect of one call on the `lit` cell: turn_on writes 1, turn_off
writes 0, is_lit only reads. -/
def lightStep (s : ℤ) : LightCall → ℤ
  | LightCall.turnOn => turn_on s
  | LightCall.turnOff => turn_off s
  | LightCall.isLit => s

/-- The `lit` cell after a sequence of calls, from its initializer
`int lit = 0;`. -/
def runLight (cs : List LightCall) : ℤ :=
  cs.foldl lightStep 0

/-- The most recent state-changing call (turn_on or turn_off) in a call
sequence, if any; is_lit calls are not state-changing. -/
def lastSwitch (cs : List LightCall) : Option LightCall :=
  cs.foldl (fun acc c => match c with
    | LightCall.isLit => acc
    | c => some c) none

lemma updateAt_ne {α : Type} (buf : ℕ → α) (i j : ℕ) (v : α) (h : j ≠ i) :
    updateAt buf i v j = buf j := by
  simp [updateAt, h]

lemma updateAt_self {α : Type} (buf : ℕ → α) (i : ℕ) (v : α) :
    updateAt buf i v i = v := by
  simp [updateAt]

lemma scanFrom_apply {α : Type} (f : ℕ → α → α) :
    ∀ (n : ℕ) (buf : ℕ → α) (i j : ℕ),
      scanFrom f buf i n j = if i ≤ j ∧ j < i + n then f j (buf j) else buf j := by
  intro n
  induction n with
  | zero =>
    intro buf i j
    rw [scanFrom, if_neg (by omega)]
  | succ n ih =>
    intro buf i j
    rw [scanFrom, ih]
    by_cases hj : j = i
    · subst hj
      rw [if_neg (by omega), updateAt_self, if_pos (by omega)]
    · rw [updateAt_ne _ _ _ _ hj]
      by_cases hr : i + 1 ≤ j ∧ j < i + 1 + n
      · rw [if_pos hr, if_pos (by omega)]
      · rw [if_neg hr, if_neg (by omega)]

lemma scan_apply {α : Type} (f : ℕ → α → α) (buf : ℕ → α) (j : ℕ) :
    scan f buf j = if j < ITEMS then f j (buf j) else buf j := by
  rw [scan, scanFrom_apply]
  by_cases h : j < ITEMS
  · rw [if_pos (by omega), if_pos h]
  · rw [if_neg (by omega), if_neg h]

lemma Fp.add_nan_left (fmt : FpFmt) (x : Fp) : Fp.add fmt Fp.nan x = Fp.nan := by
  cases x <;> rfl

lemma Fp.add_nan_right (fmt : FpFmt) (x : Fp) : Fp.add fmt x Fp.nan = Fp.nan := by
  cases x <;> rfl

lemma Fp.mul_nan_left (fmt : FpFmt) (x : Fp) : Fp.mul fmt Fp.nan x = Fp.nan := by
  cases x <;> rfl

lemma Fp.lt_nan_left (x : Fp) : Fp.lt Fp.nan x = false := by
  cases x <;> rfl

lemma roundQ_zero (fmt : FpFmt) : roundQ fmt 0 = Fp.finite 0 := by
  simp [roundQ]

lemma Fp.add_finite (fmt : FpFmt) (a b : ℚ) :
    Fp.add fmt (Fp.finite a) (Fp.finite b) = roundQ fmt (a + b) := rfl

lemma Fp.mul_finite (fmt : FpFmt) (a b : ℚ) :
    Fp.mul fmt (Fp.finite a) (Fp.finite b) = roundQ fmt (a * b) := rfl

lemma Fp.sub_finite (fmt : FpFmt) (a b : ℚ) :
    Fp.sub fmt (Fp.finite a) (Fp.finite b) = roundQ fmt (a + -b) := rfl

lemma Fp.lt_finite (a b : ℚ) : Fp.lt (Fp.finite a) (Fp.finite b) = decide (a < b) := rfl

lemma rhe_intCast (z : ℤ) : rhe ((z : ℚ)) = z := by
  rw [rhe, Int.floor_intCast, sub_self, if_pos (by norm_num)]

lemma roundSig_nat (n : ℕ) (h1 : 1 ≤ n) (h2 : n < 2 ^ 53) :
    roundSig fmt64 (n : ℚ) = (n : ℚ) := by
  have hq1 : (1 : ℚ) ≤ (n : ℚ) := by exact_mod_cast h1
  have hq0 : (0 : ℚ) < (n : ℚ) := by linarith
  have hlog_le : (2 : ℚ) ^ (Int.log 2 (n : ℚ)) ≤ (n : ℚ) :=
    Int.zpow_log_le_self (by norm_num) hq0
  have hlog_lt : (n : ℚ) < (2 : ℚ) ^ (Int.log 2 (n : ℚ) + 1) :=
    Int.lt_zpow_succ_log_self (by norm_num) _
  set L := Int.log 2 (n : ℚ) with hL
  have hL0 : 0 ≤ L := by
    by_contra hc
    push_neg at hc
    have hle : L + 1 ≤ 0 := by omega
    have h1' : (2 : ℚ) ^ (L + 1) ≤ (2 : ℚ) ^ (0 : ℤ) := zpow_le_zpow_right₀ (by norm_num) hle
    rw [zpow_zero] at h1'
    linarith
  have hn53 : (n : ℚ) < (2 : ℚ) ^ (53 : ℤ) := by
    have hc : ((n : ℚ)) < ((2 ^ 53 : ℕ) : ℚ) := by exact_mod_cast h2
    have he : ((2 ^ 53 : ℕ) : ℚ) = (2 : ℚ) ^ (53 : ℤ) := by
      push_cast
      norm_num
    linarith [he ▸ hc]
  have hL52 : L ≤ 52 := by
    by_contra hc
    push_neg at hc
    have h53 : (53 : ℤ) ≤ L := by omega
    have hle : (2 : ℚ) ^ (53 : ℤ) ≤ (2 : ℚ) ^ L := zpow_le_zpow_right₀ (by norm_num) h53
    linarith
  have hmax : max fmt64.emin L = L := by
    apply max_eq_right
    show (-1022 : ℤ) ≤ L
    omega
  have hprec : ((fmt64.prec : ℤ) - 1) = 52 := by norm_num [fmt64]
  simp only [roundSig, hmax, hprec]
  set t : ℕ := (52 - L).toNat with htdef
  have ht : (t : ℤ) = 52 - L := Int.toNat_of_nonneg (by omega)
  have harg : (n : ℚ) * (2 : ℚ) ^ ((52 : ℤ) - L) = (((n * 2 ^ t : ℕ) : ℤ) : ℚ) := by
    rw [← ht, zpow_natCast]
    push_cast
    ring
  rw [harg, rhe_intCast]
  have h2t : L - (52 : ℤ) = -(t : ℤ) := by omega
  rw [h2t, zpow_neg, zpow_natCast]
  push_cast
  rw [mul_assoc, mul_inv_cancel₀ (by positivity), mul_one]

lemma natCast_lt_pow53 (n : ℕ) (h : n < 2 ^ 53) : (n : ℚ) < (2 : ℚ) ^ (53 : ℤ) := by
  have hc : ((n : ℚ)) < ((2 ^ 53 : ℕ) : ℚ) := by exact_mod_cast h
  have he : ((2 ^ 53 : ℕ) : ℚ) = (2 : ℚ) ^ (53 : ℤ) := by
    push_cast
    norm_num
  linarith [he ▸ hc]

lemma roundQ_natCast (n : ℕ) (h : n < 2 ^ 53) :
    roundQ fmt64 (n : ℚ) = Fp.finite (n : ℚ) := by
  rcases Nat.eq_zero_or_pos n with h0 | h1
  · subst h0
    simpa using roundQ_zero fmt64
  · have hq0 : (0 : ℚ) < (n : ℚ) := by exact_mod_cast h1
    have hne : ((n : ℚ)) ≠ 0 := ne_of_gt hq0
    have hlt : roundSig fmt64 (n : ℚ) < (2 : ℚ) ^ fmt64.esup := by
      rw [roundSig_nat n h1 h]
      have h53 := natCast_lt_pow53 n h
      have hmono : (2 : ℚ) ^ (53 : ℤ) ≤ (2 : ℚ) ^ (1024 : ℤ) :=
        zpow_le_zpow_right₀ (by norm_num) (by norm_num)
      have hesup : fmt64.esup = 1024 := rfl
      rw [hesup]
      linarith
    rw [roundQ, if_neg hne, if_pos hq0, roundPos, if_pos hlt, roundSig_nat n h1 h]

lemma roundQ_two : roundQ fmt64 2 = Fp.finite 2 := by
  have h := roundQ_natCast 2 (by norm_num)
  norm_num at h
  exact h

lemma roundQ_four : roundQ fmt64 4 = Fp.finite 4 := by
  have h := roundQ_natCast 4 (by norm_num)
  norm_num at h
  exact h

lemma fmul_zero_zero : Fp.mul fmt64 (Fp.finite 0) (Fp.finite 0) = Fp.finite 0 := by
  rw [Fp.mul_finite, mul_zero, roundQ_zero]

lemma fadd_zero_zero : Fp.add fmt64 (Fp.finite 0) (Fp.finite 0) = Fp.finite 0 := by
  rw [Fp.add_finite, add_zero, roundQ_zero]

lemma mandel_test_zero :
    Fp.lt (Fp.add fmt64 (Fp.mul fmt64 (Fp.finite 0) (Fp.finite 0))
      (Fp.mul fmt64 (Fp.finite 0) (Fp.finite 0))) (Fp.finite 4) = true := by
  rw [fmul_zero_zero, fadd_zero_zero, Fp.lt_finite, decide_eq_true_eq]
  norm_num

lemma mandel_step0_zx (cx : Fp) :
    Fp.add fmt64 (Fp.sub fmt64 (Fp.mul fmt64 (Fp.finite 0) (Fp.finite 0))
      (Fp.mul fmt64 (Fp.finite 0) (Fp.finite 0))) cx = Fp.add fmt64 (Fp.finite 0) cx := by
  rw [fmul_zero_zero, Fp.sub_finite]
  norm_num [roundQ_zero]

lemma mandel_step0_zy (cy : Fp) :
    Fp.add fmt64 (Fp.mul fmt64 (Fp.mul fmt64 (Fp.finite 2) (Fp.finite 0)) (Fp.finite 0)) cy =
      Fp.add fmt64 (Fp.finite 0) cy := by
  rw [Fp.mul_finite, mul_zero, roundQ_zero, fmul_zero_zero]

lemma mandelLoop_nan_zx (cx cy zy : Fp) (i fuel : ℕ) :
    mandelLoop cx cy Fp.nan zy i fuel = i := by
  cases fuel with
  | zero => rfl
  | succ f =>
    rw [mandelLoop, Fp.mul_nan_left, Fp.add_nan_left, Fp.lt_nan_left]
    simp

lemma mandelLoop_nan_zy (cx cy zx : Fp) (i fuel : ℕ) :
    mandelLoop cx cy zx Fp.nan i fuel = i := by
  cases fuel with
  | zero => rfl
  | succ f =>
    rw [mandelLoop, Fp.mul_nan_left, Fp.add_nan_right, Fp.lt_nan_left]
    simp

lemma mandelLoop_le (cx cy : Fp) :
    ∀ (fuel : ℕ) (zx zy : Fp) (i : ℕ), mandelLoop cx cy zx zy i fuel ≤ i + fuel := by
  intro fuel
  induction fuel with
  | zero =>
    intro zx zy i
    rw [mandelLoop]
    omega
  | succ f ih =>
    intro zx zy i
    rw [mandelLoop]
    by_cases hc : Fp.lt (Fp.add fmt64 (Fp.mul fmt64 zx zx) (Fp.mul fmt64 zy zy))
        (Fp.finite 4) = true
    · rw [if_pos hc]
      exact le_trans (ih _ _ _) (by omega)
    · rw [if_neg hc]
      omega

lemma le_mandelLoop (cx cy : Fp) :
    ∀ (fuel : ℕ) (zx zy : Fp) (i : ℕ), i ≤ mandelLoop cx cy zx zy i fuel := by
  intro fuel
  induction fuel with
  | zero =>
    intro zx zy i
    rw [mandelLoop]
  | succ f ih =>
    intro zx zy i
    rw [mandelLoop]
    by_cases hc : Fp.lt (Fp.add fmt64 (Fp.mul fmt64 zx zx) (Fp.mul fmt64 zy zy))
        (Fp.finite 4) = true
    · rw [if_pos hc]
      exact le_trans (by omega) (ih _ _ (i + 1))
    · rw [if_neg hc]

lemma mandelLoop_min (cx cy : Fp) :
    ∀ (f1 f2 : ℕ) (zx zy : Fp) (i : ℕ), f1 ≤ f2 →
      mandelLoop cx cy zx zy i f1 = min (mandelLoop cx cy zx zy i f2) (i + f1) := by
  intro f1
  induction f1 with
  | zero =>
    intro f2 zx zy i hf
    rw [mandelLoop]
    have hle := le_mandelLoop cx cy f2 zx zy i
    omega
  | succ f ih =>
    intro f2 zx zy i hf
    obtain ⟨g, rfl⟩ : ∃ g, f2 = g + 1 := ⟨f2 - 1, by omega⟩
    rw [mandelLoop, mandelLoop]
    by_cases hc : Fp.lt (Fp.add fmt64 (Fp.mul fmt64 zx zx) (Fp.mul fmt64 zy zy))
        (Fp.finite 4) = true
    · rw [if_pos hc, if_pos hc, ih g _ _ _ (by omega)]
      have harith : i + 1 + f = i + (f + 1) := by omega
      rw [harith]
    · rw [if_neg hc, if_neg hc]
      omega

lemma mandelLoop_origin : ∀ (fuel i : ℕ),
    mandelLoop (Fp.finite 0) (Fp.finite 0) (Fp.finite 0) (Fp.finite 0) i fuel = i + fuel := by
  intro fuel
  induction fuel with
  | zero =>
    intro i
    rw [mandelLoop]
    omega
  | succ f ih =>
    intro i
    rw [mandelLoop, if_pos mandel_test_zero, mandel_step0_zx, mandel_step0_zy, fadd_zero_zero, ih]
    omega

lemma mandel_test_two_escaped :
    Fp.lt (Fp.add fmt64 (Fp.mul fmt64 (Fp.finite 2) (Fp.finite 2))
      (Fp.mul fmt64 (Fp.finite 0) (Fp.finite 0))) (Fp.finite 4) = false := by
  rw [Fp.mul_finite, fmul_zero_zero]
  norm_num [roundQ_four, Fp.add_finite, Fp.lt_finite]

/-- C1 counterexample: at cx = NaN, cy = 0, maxIters = 2 the function
returns 1, not maxIters = 2 — after the first iteration zx is NaN, so the
loop-continuation test `zx*zx + zy*zy < 4.0` is false and the loop exits. -/
theorem claim_C1_cex : iterate_mandelbrot Fp.nan (Fp.finite 0) 2 ≠ 2 := by
  have h1 : iterate_mandelbrot Fp.nan (Fp.finite 0) 2 = 0 + 1 := by
    rw [iterate_mandelbrot, mandelLoop, if_pos mandel_test_zero, mandel_step0_zx, mandel_step0_zy,
        fadd_zero_zero, Fp.add_nan_right, mandelLoop_nan_zx]
  omega

/-- C1 (amended): for any maxIters and any pair with at least one NaN
coordinate, iterate_mandelbrot returns min 1 maxIters, not maxIters: the
first iteration makes z NaN, every comparison with NaN is false, and a
false loop-continuation test `zx*zx + zy*zy < 4.0` terminates the loop, so
it stops after one iteration (or zero when maxIters = 0). -/
theorem claim_C1 (cx cy : Fp) (m : ℕ) (h : cx = Fp.nan ∨ cy = Fp.nan) :
    iterate_mandelbrot cx cy m = min 1 m := by
  cases m with
  | zero =>
    rw [iterate_mandelbrot, mandelLoop]
    omega
  | succ k =>
    rw [iterate_mandelbrot, mandelLoop, if_pos mandel_test_zero, mandel_step0_zx, mandel_step0_zy]
    rcases h with h | h
    · subst h
      rw [Fp.add_nan_right, mandelLoop_nan_zx]
      omega
    · subst h
      rw [Fp.add_nan_right, mandelLoop_nan_zy]
      omega

theorem claim_C1_witness :
    (Fp.nan = Fp.nan ∨ Fp.finite 0 = Fp.nan) ∧
      iterate_mandelbrot Fp.nan (Fp.finite 0) 5 = min 1 5 :=
  ⟨Or.inl rfl, claim_C1 Fp.nan (Fp.finite 0) 5 (Or.inl rfl)⟩

/-- C2: for fixed cx, cy the escape count is non-decreasing in the
iteration bound, and for m1 ≤ m2 the count at bound m1 is the count at
bound m2 clamped to m1. -/
theorem claim_C2 (cx cy : Fp) (m1 m2 : ℕ) (h : m1 ≤ m2) :
    iterate_mandelbrot cx cy m1 ≤ iterate_mandelbrot cx cy m2 ∧
      iterate_mandelbrot cx cy m1 = min (iterate_mandelbrot cx cy m2) m1 := by
  have hm := mandelLoop_min cx cy m1 m2 (Fp.finite 0) (Fp.finite 0) 0 h
  rw [iterate_mandelbrot, iterate_mandelbrot, hm]
  omega

theorem claim_C2_witness :
    2 ≤ 5 ∧
      (iterate_mandelbrot (Fp.finite 0) (Fp.finite 0) 2 ≤
          iterate_mandelbrot (Fp.finite 0) (Fp.finite 0) 5 ∧
        iterate_mandelbrot (Fp.finite 0) (Fp.finite 0) 2 =
          min (iterate_mandelbrot (Fp.finite 0) (Fp.finite 0) 5) 2) :=
  ⟨by decide, claim_C2 (Fp.finite 0) (Fp.finite 0) 2 5 (by decide)⟩

/-- C3: the escape count always lies in [0, maxIters], and a bound of 0
returns 0 immediately. -/
theorem claim_C3 (cx cy : Fp) (m : ℕ) :
    iterate_mandelbrot cx cy m ≤ m ∧ iterate_mandelbrot cx cy 0 = 0 := by
  constructor
  · have h := mandelLoop_le cx cy m (Fp.finite 0) (Fp.finite 0) 0
    rw [iterate_mandelbrot]
    omega
  · rfl

/-- C7: at cx = 0, cy = 0 the orbit stays at the origin, the
loop-continuation test 0 < 4.0 always holds, and the loop runs to
maxIters. -/
theorem claim_C7 (m : ℕ) : iterate_mandelbrot (Fp.finite 0) (Fp.finite 0) m = m := by
  rw [iterate_mandelbrot, mandelLoop_origin]
  omega

/-- C8: at cx = 2, cy = 0 and any bound of at least 1 the result is 1: the
first iteration gives z = (2, 0) exactly, and 2*2 + 0*0 = 4 fails the
continuation test 4 < 4.0. -/
theorem claim_C8 (m : ℕ) (h : 1 ≤ m) :
    iterate_mandelbrot (Fp.finite 2) (Fp.finite 0) m = 1 := by
  obtain ⟨k, rfl⟩ : ∃ k, m = k + 1 := ⟨m - 1, by omega⟩
  rw [iterate_mandelbrot, mandelLoop, if_pos mandel_test_zero, mandel_step0_zx, mandel_step0_zy,
      fadd_zero_zero, Fp.add_finite]
  norm_num [roundQ_two]
  cases k with
  | zero => rfl
  | succ j =>
    rw [mandelLoop, mandel_test_two_escaped]
    simp

theorem claim_C8_witness :
    1 ≤ 3 ∧ iterate_mandelbrot (Fp.finite 2) (Fp.finite 0) 3 = 1 :=
  ⟨by decide, claim_C8 3 (by decide)⟩

lemma process_i8_def (s : MemState) :
    process_i8 s = { s with buffer_i8 := scan (fun i v => (v + i) % 2 ^ 8) s.buffer_i8 } := rfl

lemma process_i16_def (s : MemState) :
    process_i16 s = { s with buffer_i16 := scan (fun i v => (v + i) % 2 ^ 16) s.buffer_i16 } := rfl

lemma process_i32_def (s : MemState) :
    process_i32 s = { s with buffer_i32 := scan (fun i v => (v + i) % 2 ^ 32) s.buffer_i32 } := rfl

lemma process_i64_def (s : MemState) :
    process_i64 s = { s with buffer_i64 := scan (fun i v => (v + i) % 2 ^ 64) s.buffer_i64 } := rfl

lemma process_f32_def (s : MemState) :
    process_f32 s =
      { s with buffer_f32 := scan (fun i v => Fp.add fmt32 v (roundQ fmt32 (i : ℚ))) s.buffer_f32 } :=
  rfl

lemma process_f64_def (s : MemState) :
    process_f64 s =
      { s with buffer_f64 := scan (fun i v => Fp.add fmt64 v (roundQ fmt64 (i : ℚ))) s.buffer_f64 } :=
  rfl

lemma initMem_i8 (i : ℕ) : initMem.buffer_i8 i = 0 := rfl

lemma initMem_f64 (i : ℕ) : initMem.buffer_f64 i = Fp.finite 0 := rfl

/-- C4: on the zero-initialized 8-bit buffer, one process_i8 pass leaves
element i equal to the 8-bit wrap of i, and a second pass leaves it equal
to the 8-bit wrap of 2*i. -/
theorem claim_C4 (i : ℕ) (h : i < ITEMS) :
    (process_i8 initMem).buffer_i8 i = i % 256 ∧
      (process_i8 (process_i8 initMem)).buffer_i8 i = 2 * i % 256 := by
  have e1 : (process_i8 initMem).buffer_i8 i = i % 256 := by
    rw [process_i8_def]
    simp only [scan_apply, if_pos h, initMem_i8]
    omega
  refine ⟨e1, ?_⟩
  rw [process_i8_def (process_i8 initMem)]
  simp only [scan_apply, if_pos h, e1]
  omega

theorem claim_C4_witness :
    7 < ITEMS ∧
      ((process_i8 initMem).buffer_i8 7 = 7 % 256 ∧
        (process_i8 (process_i8 initMem)).buffer_i8 7 = 2 * 7 % 256) :=
  ⟨by decide, claim_C4 7 (by decide)⟩

/-- C5: process_all is exactly the six individual routines run in the
listed order (8, 16, 32, 64-bit integer, then 32- and 64-bit float), and
from any starting state every element of every buffer ends up with its
per-type update applied exactly once — no buffer is touched twice or
skipped. -/
theorem claim_C5 (s : MemState) (i : ℕ) (h : i < ITEMS) :
    process_all s = processAllSpec s ∧
      (process_all s).buffer_i8 i = (s.buffer_i8 i + i) % 2 ^ 8 ∧
      (process_all s).buffer_i16 i = (s.buffer_i16 i + i) % 2 ^ 16 ∧
      (process_all s).buffer_i32 i = (s.buffer_i32 i + i) % 2 ^ 32 ∧
      (process_all s).buffer_i64 i = (s.buffer_i64 i + i) % 2 ^ 64 ∧
      (process_all s).buffer_f32 i = Fp.add fmt32 (s.buffer_f32 i) (roundQ fmt32 (i : ℚ)) ∧
      (process_all s).buffer_f64 i = Fp.add fmt64 (s.buffer_f64 i) (roundQ fmt64 (i : ℚ)) := by
  have hall : process_all s =
      { s with
        buffer_i8 := scan (fun i v => (v + i) % 2 ^ 8) s.buffer_i8
        buffer_i16 := scan (fun i v => (v + i) % 2 ^ 16) s.buffer_i16
        buffer_i32 := scan (fun i v => (v + i) % 2 ^ 32) s.buffer_i32
        buffer_i64 := scan (fun i v => (v + i) % 2 ^ 64) s.buffer_i64
        buffer_f32 := scan (fun i v => Fp.add fmt32 v (roundQ fmt32 (i : ℚ))) s.buffer_f32
        buffer_f64 := scan (fun i v => Fp.add fmt64 v (roundQ fmt64 (i : ℚ))) s.buffer_f64 } := by
    rw [show process_all s = process_f64 (process_f32 (process_i64 (process_i32
          (process_i16 (process_i8 s))))) from rfl]
    rw [process_i8_def, process_i16_def, process_i32_def, process_i64_def, process_f32_def,
        process_f64_def]
  refine ⟨rfl, ?_, ?_, ?_, ?_, ?_, ?_⟩ <;>
    simp only [hall, scan_apply, if_pos h]

theorem claim_C5_witness :
    process_all initMem = processAllSpec initMem ∧
      (process_all initMem).buffer_i8 3 = (initMem.buffer_i8 3 + 3) % 2 ^ 8 ∧
      (process_all initMem).buffer_i16 3 = (initMem.buffer_i16 3 + 3) % 2 ^ 16 ∧
      (process_all initMem).buffer_i32 3 = (initMem.buffer_i32 3 + 3) % 2 ^ 32 ∧
      (process_all initMem).buffer_i64 3 = (initMem.buffer_i64 3 + 3) % 2 ^ 64 ∧
      (process_all initMem).buffer_f32 3 =
        Fp.add fmt32 (initMem.buffer_f32 3) (roundQ fmt32 (3 : ℚ)) ∧
      (process_all initMem).buffer_f64 3 =
        Fp.add fmt64 (initMem.buffer_f64 3) (roundQ fmt64 (3 : ℚ)) :=
  claim_C5 initMem 3 (by decide)

/-- C6: each process_<type> routine mutates only its own buffer; the whole
effect of a call is confined to that one buffer, and the other five
components of the state are unchanged. -/
theorem claim_C6 (s : MemState) :
    ((process_i8 s).buffer_i16 = s.buffer_i16 ∧ (process_i8 s).buffer_i32 = s.buffer_i32 ∧
      (process_i8 s).buffer_i64 = s.buffer_i64 ∧ (process_i8 s).buffer_f32 = s.buffer_f32 ∧
      (process_i8 s).buffer_f64 = s.buffer_f64) ∧
    ((process_i16 s).buffer_i8 = s.buffer_i8 ∧ (process_i16 s).buffer_i32 = s.buffer_i32 ∧
      (process_i16 s).buffer_i64 = s.buffer_i64 ∧ (process_i16 s).buffer_f32 = s.buffer_f32 ∧
      (process_i16 s).buffer_f64 = s.buffer_f64) ∧
    ((process_i32 s).buffer_i8 = s.buffer_i8 ∧ (process_i32 s).buffer_i16 = s.buffer_i16 ∧
      (process_i32 s).buffer_i64 = s.buffer_i64 ∧ (process_i32 s).buffer_f32 = s.buffer_f32 ∧
      (process_i32 s).buffer_f64 = s.buffer_f64) ∧
    ((process_i64 s).buffer_i8 = s.buffer_i8 ∧ (process_i64 s).buffer_i16 = s.buffer_i16 ∧
      (process_i64 s).buffer_i32 = s.buffer_i32 ∧ (process_i64 s).buffer_f32 = s.buffer_f32 ∧
      (process_i64 s).buffer_f64 = s.buffer_f64) ∧
    ((process_f32 s).buffer_i8 = s.buffer_i8 ∧ (process_f32 s).buffer_i16 = s.buffer_i16 ∧
      (process_f32 s).buffer_i32 = s.buffer_i32 ∧ (process_f32 s).buffer_i64 = s.buffer_i64 ∧
      (process_f32 s).buffer_f64 = s.buffer_f64) ∧
    ((process_f64 s).buffer_i8 = s.buffer_i8 ∧ (process_f64 s).buffer_i16 = s.buffer_i16 ∧
      (process_f64 s).buffer_i32 = s.buffer_i32 ∧ (process_f64 s).buffer_i64 = s.buffer_i64 ∧
      (process_f64 s).buffer_f32 = s.buffer_f32) := by
  rw [process_i8_def, process_i16_def, process_i32_def, process_i64_def, process_f32_def,
      process_f64_def]
  exact ⟨⟨rfl, rfl, rfl, rfl, rfl⟩, ⟨rfl, rfl, rfl, rfl, rfl⟩, ⟨rfl, rfl, rfl, rfl, rfl⟩,
    ⟨rfl, rfl, rfl, rfl, rfl⟩, ⟨rfl, rfl, rfl, rfl, rfl⟩, ⟨rfl, rfl, rfl, rfl, rfl⟩⟩

/-- C9: on the zero-initialized double buffer, one process_f64 pass leaves
element i equal to the exact double value of i, with no rounding error,
for every index below ITEMS (every such i is far below 2 ^ 53). -/
theorem claim_C9 (i : ℕ) (h : i < ITEMS) :
    (process_f64 initMem).buffer_f64 i = Fp.finite (i : ℚ) := by
  have h53 : i < 2 ^ 53 := lt_of_lt_of_le h (by norm_num [ITEMS])
  rw [process_f64_def]
  simp only [scan_apply, if_pos h, initMem_f64]
  rw [roundQ_natCast i h53, Fp.add_finite, zero_add, roundQ_natCast i h53]

theorem claim_C9_witness :
    5 < ITEMS ∧ (process_f64 initMem).buffer_f64 5 = Fp.finite ((5 : ℕ) : ℚ) :=
  ⟨by decide, claim_C9 5 (by decide)⟩

lemma lightAux (cs : List LightCall) :
    ∀ (s : ℤ) (a : Option LightCall),
      (s = 0 ∨ s = 1) →
      (s = 1 ↔ a = some LightCall.turnOn) →
      (s = 0 ↔ (a = none ∨ a = some LightCall.turnOff)) →
      ((cs.foldl lightStep s = 0 ∨ cs.foldl lightStep s = 1) ∧
        (cs.foldl lightStep s = 1 ↔
          cs.foldl (fun acc c => match c with
            | LightCall.isLit => acc
            | c => some c) a = some LightCall.turnOn) ∧
        (cs.foldl lightStep s = 0 ↔
          (cs.foldl (fun acc c => match c with
            | LightCall.isLit => acc
            | c => some c) a = none ∨
           cs.foldl (fun acc c => match c with
            | LightCall.isLit => acc
            | c => some c) a = some LightCall.turnOff))) := by
  induction cs with
  | nil =>
    intro s a h1 h2 h3
    exact ⟨h1, h2, h3⟩
  | cons c cs ih =>
    intro s a h1 h2 h3
    cases c with
    | turnOn =>
      refine ih 1 (some LightCall.turnOn) (Or.inr rfl) (by simp) ?_
      constructor
      · intro h
        norm_num at h
      · intro h
        rcases h with h | h <;> simp at h
    | turnOff =>
      refine ih 0 (some LightCall.turnOff) (Or.inl rfl) ?_ (by simp)
      constructor
      · intro h
        norm_num at h
      · intro h
        simp at h
    | isLit => exact ih s a h1 h2 h3

/-- C10: lit starts at 0, every reachable value is 0 or 1, is_lit returns
the current value of lit without changing it, and the value is 1 exactly
when the most recent state-changing call was turn_on (0 initially or when
it was turn_off). -/
theorem claim_C10 (cs : List LightCall) :
    (runLight cs = 0 ∨ runLight cs = 1) ∧
      is_lit (runLight cs) = runLight cs ∧
      (runLight cs = 1 ↔ lastSwitch cs = some LightCall.turnOn) ∧
      (runLight cs = 0 ↔ (lastSwitch cs = none ∨ lastSwitch cs = some LightCall.turnOff)) := by
  have h := lightAux cs 0 none (Or.inl rfl) (by constructor <;> intro hx <;> simp at hx) (by simp)
  exact ⟨h.1, rfl, h.2.1, h.2.2⟩
